import Mathlib

/-!
Verification of the PDF text-formatting and layout code of the
`chat_pdf_down` repository.

The development shallowly embeds the functions of
`src/utils/pdfTextFormatter.js` and the PDF-generation loop of
`src/components/ChatResponse.js` (function `downloadMessagePDF`).

Modelling conventions:
* JavaScript strings are modelled as `List Char` (one entry per Unicode
  code point; the string operations used by the source — `split`, `join`,
  `trim`, `startsWith`, per-code-point regex classes with the `u` flag —
  all act at code-point granularity on the inputs of interest).
* `undefined` string arguments are modelled with `Option (List Char)`.
* Geometry (x, y, widths, heights, in mm) is modelled with `ℚ`.
* The external jsPDF sink is modelled by an explicit list of draw events;
  `pdf.addPage()` is modelled as an increment of an explicit page counter.
* `pdf.getTextWidth` (which depends on the font style in effect) is
  modelled as an abstract width function `FStyle → List Char → ℚ`.
-/

set_option maxRecDepth 10000

namespace ChatPdf

/-- A styled run produced by `parseInlineFormatting`
(the JS object `{ text, bold, italic }`). -/
structure Run where
  text : List Char
  bold : Bool
  italic : Bool
deriving DecidableEq, Repr

/-- The `if (currentText) { segments.push({...}); currentText = ''; }` step of
`parseInlineFormatting`: flush the pending text (if nonempty) in front of the
remaining output. -/
def flushRun (acc : List Char) (b i : Bool) (rest : List Run) : List Run :=
  if acc = [] then rest else ⟨acc, b, i⟩ :: rest

/-- The scanning loop of `parseInlineFormatting`
(`src/utils/pdfTextFormatter.js`, lines 148–198).  `prev` is the character at
position `i - 1` of the original string (`none` at the start, where the JS
`text[i - 1]` is `undefined`), `s` the rest of the input from position `i`,
`acc` the JS `currentText`, and `b`/`i` the JS `isBold`/`isItalic` flags.
The three delimiter tests are tried in source order: `***`, then `**`, then a
single `*` whose neighbours are not `*`. -/
def parseInlineAux (prev : Option Char) (s : List Char) (acc : List Char)
    (b it : Bool) : List Run :=
  match s with
  | '*' :: '*' :: '*' :: rest =>
    flushRun acc b it (parseInlineAux (some '*') rest [] (!b) (!it))
  | '*' :: '*' :: rest =>
    flushRun acc b it (parseInlineAux (some '*') rest [] (!b) it)
  | '*' :: rest =>
    if prev = some '*' then
      parseInlineAux (some '*') rest (acc ++ ['*']) b it
    else
      flushRun acc b it (parseInlineAux (some '*') rest [] b (!it))
  | c :: rest =>
    parseInlineAux (some c) rest (acc ++ [c]) b it
  | [] => flushRun acc b it []

/-- Embeds `parseInlineFormatting` of `src/utils/pdfTextFormatter.js`. -/
def parseInlineFormatting (text : List Char) : List Run :=
  parseInlineAux none text [] false false

/-- The characters of the input that the scanner of `parseInlineFormatting`
does **not** consume as delimiter tokens, in order.  This mirrors the
case analysis of `parseInlineAux` exactly, keeping the characters instead of
building runs. -/
def inlineKeptChars (prev : Option Char) (s : List Char) : List Char :=
  match s with
  | '*' :: '*' :: '*' :: rest => inlineKeptChars (some '*') rest
  | '*' :: '*' :: rest => inlineKeptChars (some '*') rest
  | '*' :: rest =>
    if prev = some '*' then '*' :: inlineKeptChars (some '*') rest
    else inlineKeptChars (some '*') rest
  | c :: rest => c :: inlineKeptChars (some c) rest
  | [] => []

/-- Concatenation of the texts of a list of runs. -/
def concatText (rs : List Run) : List Char :=
  (rs.map Run.text).flatten

/-- The `EMOJI_REPLACEMENTS` table of `src/utils/pdfTextFormatter.js`
(lines 10–44), in object-key insertion order, which is the order
`Object.keys` iterates it in.  Keys are sequences of code points; the three
keys written with a trailing `️` in this file carry the variation
selector that is part of the corresponding source literal. -/
def EMOJI_REPLACEMENTS : List (List Char × List Char) :=
  [("💼".toList, "[Briefcase] ".toList),
   ("🎯".toList, "[Target] ".toList),
   ("📊".toList, "[Chart] ".toList),
   ("📈".toList, "[Trending Up] ".toList),
   ("📉".toList, "[Trending Down] ".toList),
   ("✅".toList, "[Check] ".toList),
   ("❌".toList, "[X] ".toList),
   ("⚠️".toList, "[Warning] ".toList),
   ("💡".toList, "[Idea] ".toList),
   ("🔍".toList, "[Search] ".toList),
   ("📝".toList, "[Note] ".toList),
   ("🚀".toList, "[Rocket] ".toList),
   ("⭐".toList, "[Star] ".toList),
   ("👍".toList, "[Thumbs Up] ".toList),
   ("👎".toList, "[Thumbs Down] ".toList),
   ("🔥".toList, "[Fire] ".toList),
   ("💰".toList, "[Money] ".toList),
   ("📱".toList, "[Phone] ".toList),
   ("💻".toList, "[Computer] ".toList),
   ("🌟".toList, "[Star] ".toList),
   ("📅".toList, "[Calendar] ".toList),
   ("🎉".toList, "[Party] ".toList),
   ("⏰".toList, "[Clock] ".toList),
   ("📧".toList, "[Email] ".toList),
   ("🔔".toList, "[Bell] ".toList),
   ("📌".toList, "[Pin] ".toList),
   ("📑".toList, "[Document] ".toList),
   ("🥧".toList, "[Pie] ".toList),
   ("📐".toList, "[Ruler] ".toList),
   ("🏆".toList, "[Trophy] ".toList),
   ("✍️".toList, "[Writing] ".toList),
   ("📋".toList, "[Clipboard] ".toList),
   ("🗺️".toList, "[Map] ".toList)]

/-- Fuel-driven worker for `replaceAll` (the fuel is an embedding artifact
that makes the definition structurally recursive; `replaceAll` always supplies
enough fuel).  Mirrors `result.split(emoji).join(replacement)`: scan left to
right, and at each position either consume one occurrence of `k` (emitting
`v`) or keep one character. -/
def replaceAllAux (k v : List Char) : ℕ → List Char → List Char
  | 0, s => s
  | _ + 1, [] => []
  | fuel + 1, c :: rest =>
    if k ≠ [] ∧ k.isPrefixOf (c :: rest) then
      v ++ replaceAllAux k v fuel ((c :: rest).drop k.length)
    else
      c :: replaceAllAux k v fuel rest

/-- Embeds `s.split(k).join(v)`: replace every (non-overlapping, leftmost-first)
occurrence of `k` in `s` by `v`. -/
def replaceAll (k v : List Char) (s : List Char) : List Char :=
  replaceAllAux k v s.length s

/-- The `Object.keys(EMOJI_REPLACEMENTS).forEach` loop of
`replaceEmojisForPDF`: apply each replacement in table order. -/
def foldReplace (l : List (List Char × List Char)) (s : List Char) : List Char :=
  l.foldl (fun acc kv => replaceAll kv.1 kv.2 acc) s

/-- The code-point test of the fallback regex
`/[\u{1F300}-\u{1F9FF}]|[\u{2600}-\u{26FF}]|[\u{2700}-\u{27BF}]/gu`. -/
def inEmojiRanges (c : Char) : Bool :=
  (0x1F300 ≤ c.toNat && c.toNat ≤ 0x1F9FF) ||
  (0x2600 ≤ c.toNat && c.toNat ≤ 0x26FF) ||
  (0x2700 ≤ c.toNat && c.toNat ≤ 0x27BF)

/-- Embeds `result.replace(/.../gu, '')`: with the `u` flag and single-code-point
alternatives, the global replace by the empty string removes exactly the
code points matched by `inEmojiRanges`. -/
def stripEmojiRanges (s : List Char) : List Char :=
  s.filter (fun c => !inEmojiRanges c)

/-- Embeds `replaceEmojisForPDF` of `src/utils/pdfTextFormatter.js` (lines 49–59).
`none` models an `undefined`/`null` argument; the JS guard
`if (!text) return text` returns falsy inputs (including the empty string)
unchanged. -/
def replaceEmojisForPDF (text : Option (List Char)) : Option (List Char) :=
  match text with
  | none => none
  | some s =>
    if s = [] then some s
    else some (stripEmojiRanges (foldReplace EMOJI_REPLACEMENTS s))

/-- The string-level normalization applied to a defined, nonempty string. -/
def replaceEmojisStr (s : List Char) : List Char :=
  if s = [] then s else stripEmojiRanges (foldReplace EMOJI_REPLACEMENTS s)

/-- JavaScript whitespace as used by `String.prototype.trim` and the `\s`
class, restricted to the code points that can occur here. -/
def isWS (c : Char) : Bool :=
  c = ' ' || c = '\t' || c = '\n' || c = '\r' || c = '\x0B' || c = '\x0C'

/-- Embeds `line.trim()`. -/
def jsTrim (s : List Char) : List Char :=
  ((s.dropWhile isWS).reverse.dropWhile isWS).reverse

/-- Embeds `text.split('\n')` (always returns at least one, possibly empty, piece). -/
def splitOnNl (s : List Char) : List (List Char) :=
  match s with
  | [] => [[]]
  | c :: rest =>
    let ls := splitOnNl rest
    if c = '\n' then [] :: ls
    else
      match ls with
      | [] => [[c]]
      | l :: ls2 => (c :: l) :: ls2

/-- Embeds `segment.text.split(' ')` (empty pieces are kept, as in JS). -/
def splitOnSpace (s : List Char) : List (List Char) :=
  match s with
  | [] => [[]]
  | c :: rest =>
    let ls := splitOnSpace rest
    if c = ' ' then [] :: ls
    else
      match ls with
      | [] => [[c]]
      | l :: ls2 => (c :: l) :: ls2

/-- Embeds the test `/^\d+\.\s/.test(trimmed)`: one or more digits, a dot, one whitespace. -/
def isNumberedList (s : List Char) : Bool :=
  match s.dropWhile Char.isDigit with
  | '.' :: c :: _ => !(s.takeWhile Char.isDigit).isEmpty && isWS c
  | _ => false

/-- Embeds `trimmed.startsWith(p)` for a single character. -/
def headIs (c : Char) (s : List Char) : Bool :=
  match s with
  | d :: _ => d = c
  | [] => false

/-- The bullet test of `parseFormattedText` (line 104): starts with `•`, `-`,
or a `*` that is not the start of `**` — and is not a numbered list. -/
def isBulletLine (trimmed : List Char) : Bool :=
  !isNumberedList trimmed &&
    (headIs '•' trimmed || headIs '-' trimmed ||
      (headIs '*' trimmed && !(['*', '*'].isPrefixOf trimmed)))

/-- Embeds `trimmed.replace(/^[•\-*]\s*/, '')`: strip one leading bullet marker and
any whitespace after it (a no-op if the string does not start with a marker). -/
def stripBulletMarker (s : List Char) : List Char :=
  match s with
  | c :: rest =>
    if c = '•' || c = '-' || c = '*' then rest.dropWhile isWS else s
  | [] => s

/-- A parsed segment of `parseFormattedText` (the JS object spread
`{ ...seg, isBullet, indent, isSubBullet }`, or the line marker
`{ text: '', isNewline: true }`).  Default field values model absent
(`undefined`) JS fields. -/
structure Seg where
  text : List Char := []
  bold : Bool := false
  italic : Bool := false
  isNewline : Bool := false
  isBullet : Bool := false
  indent : ℚ := 0
  isSubBullet : Bool := false
deriving DecidableEq, Repr

/-- The line marker `{ text: '', isNewline: true }`. -/
def nlSeg : Seg := { isNewline := true }

/-- The `inlineSegments.forEach((seg, idx) => ...)` spread of
`parseFormattedText` (lines 122–129): copy each run, marking only run number
zero with the line's bullet flag, and stamping the line's indent and
sub-bullet flag on every run. -/
def tagSegs (isB : Bool) (indentLevel : ℚ) (isSub : Bool) : List Run → List Seg
  | [] => []
  | r :: rs =>
    ⟨r.text, r.bold, r.italic, false, isB, indentLevel, isSub⟩ ::
      rs.map (fun q => ⟨q.text, q.bold, q.italic, false, false, indentLevel, isSub⟩)

/-- The body of the `lines.forEach` loop of `parseFormattedText`
(`src/utils/pdfTextFormatter.js`, lines 90–132): the segments contributed by
one line, including the trailing line marker. -/
def lineSegments (line : List Char) : List Seg :=
  if jsTrim line = [] then [nlSeg]
  else
    let hasTab := headIs '\t' line
    let trimmed := jsTrim line
    let isB := isBulletLine trimmed
    let indentLevel : ℚ := if isB then (if hasTab then 20 else 8) else 0
    let content := if isB then stripBulletMarker trimmed else line
    tagSegs isB indentLevel (hasTab && isB)
      (parseInlineFormatting (jsTrim content)) ++ [nlSeg]

/-- Embeds `parseFormattedText` of `src/utils/pdfTextFormatter.js` (lines 82–135).
The argument is a defined string (the function is only called with one). -/
def parseFormattedText (text : List Char) : List Seg :=
  ((splitOnNl (replaceEmojisStr text)).map lineSegments).flatten

/-- Specification predicate for one recorded `renderTextLine` call
`(segments, bulletIndent)` of `addFormattedText`: a sub-bulleted line is
rendered with indent 20, a main-bulleted line with indent 8, and a line
without any bullet segment with indent 0. -/
def CallGood (call : List Seg × ℚ) : Prop :=
  ((∃ s ∈ call.1, s.isBullet = true ∧ s.isSubBullet = true) → call.2 = 20) ∧
  ((∃ s ∈ call.1, s.isBullet = true ∧ s.isSubBullet = false) → call.2 = 8) ∧
  ((∀ s ∈ call.1, s.isBullet = false) → call.2 = 0)

/-- A jsPDF font emphasis style, as selected by `pdf.setFont`. -/
inductive FStyle where
  | normal
  | bold
  | italic
  | bolditalic
deriving DecidableEq, Repr

/-- The per-segment font-style resolution of `renderTextLine`
(lines 322–326). -/
def styleOf (s : Seg) : FStyle :=
  if s.bold && s.italic then .bolditalic
  else if s.bold then .bold
  else if s.italic then .italic
  else .normal

/-- The document cursor: current physical page (starting at 1) and the
`yPosition` / `currentY` variable (mm from the top of that page). -/
structure Cursor where
  page : ℕ
  y : ℚ
deriving DecidableEq, Repr

/-- Kind of a draw call issued to the jsPDF sink. -/
inductive EvKind where
  | word
  | glyph
  | label
  | image
  | table
deriving DecidableEq, Repr

/-- One draw call against the jsPDF sink: `pdf.text` (kinds `word` for the
word-wrapping loop of `renderTextLine`, `glyph` for bullet glyphs, `label`
for headings and other fixed text), `pdf.addImage` (kind `image`) and an
`autoTable` invocation (kind `table`). -/
structure Ev where
  page : ℕ
  x : ℚ
  y : ℚ
  style : FStyle
  kind : EvKind
  txt : List Char
deriving DecidableEq, Repr

/-- Parameters of one `renderTextLine` call
(`src/utils/pdfTextFormatter.js`, lines 287–298).  `measure` models
`pdf.getTextWidth` under the font style in effect. -/
structure TLParams where
  measure : FStyle → List Char → ℚ
  xPosition : ℚ
  maxWidth : ℚ
  lineHeight : ℚ
  bulletIndent : ℚ
  pageHeight : ℚ

/-- Local state of the word-wrapping loop of `renderTextLine`: the
x-cursor, the document cursor, the draw calls issued so far, and the list of
successive values taken by the document cursor (the cursor trace). -/
structure WordSt where
  x : ℚ
  cur : Cursor
  evs : List Ev
  tr : List Cursor

/-- One iteration of the `words.forEach` loop of `renderTextLine`
(lines 343–379).  `isFirst` is `wordIdx === 0`; `startX` is
`xPosition + bulletIndent`. -/
def rtlWord (P : TLParams) (style : FStyle) (startX : ℚ) (isFirst : Bool)
    (word : List Char) (st : WordSt) : WordSt :=
  let textToAdd := if !isFirst || st.x > startX then ' ' :: word else word
  let textWidth := P.measure style textToAdd
  if st.x + textWidth > P.xPosition + P.maxWidth - 5 then
    -- move to next line
    let c1 : Cursor := ⟨st.cur.page, st.cur.y + P.lineHeight⟩
    let st1 : WordSt := ⟨startX, c1, st.evs, st.tr ++ [c1]⟩
    -- check for page break (margin = 15 inside renderTextLine)
    let st2 : WordSt :=
      if c1.y > P.pageHeight - 15 - 10 then
        let c2 : Cursor := ⟨c1.page + 1, 15⟩
        let bulletEvs : List Ev :=
          if P.bulletIndent > 0 then
            [⟨c2.page, P.xPosition + 2, c2.y, .normal, .glyph, ['•']⟩]
          else []
        ⟨startX, c2, st1.evs ++ bulletEvs, st1.tr ++ [c2]⟩
      else st1
    -- render word without leading space on the new line
    ⟨st2.x + P.measure style word, st2.cur,
     st2.evs ++ [⟨st2.cur.page, st2.x, st2.cur.y, style, .word, word⟩],
     st2.tr⟩
  else
    -- render word on the current line
    ⟨st.x + textWidth, st.cur,
     st.evs ++ [⟨st.cur.page, st.x, st.cur.y, style, .word, textToAdd⟩],
     st.tr⟩

/-- Specification predicate for a draw call of the word-wrapping loop: a
drawn word either stays within the column limit (with the 5 mm safety slack
of the source condition) or is drawn at the indented line start `startX`
(which happens exactly when a word is drawn right after a wrap, with no
check that the word itself fits). -/
def WordEvOk (P : TLParams) (startX : ℚ) (e : Ev) : Prop :=
  e.kind = EvKind.word →
    (e.x + P.measure e.style e.txt ≤ P.xPosition + P.maxWidth - 5 ∨ e.x = startX)

/-- The `words.forEach` loop over the words of one segment. -/
def rtlWords (P : TLParams) (style : FStyle) (startX : ℚ) :
    List (List Char) → Bool → WordSt → WordSt
  | [], _, st => st
  | w :: rest, isFirst, st =>
    rtlWords P style startX rest false (rtlWord P style startX isFirst w st)

/-- One iteration of the `segments.forEach` loop of `renderTextLine`
(lines 319–380): skip empty-text segments, otherwise wrap the segment's
words under its resolved font style. -/
def rtlSeg (P : TLParams) (startX : ℚ) (st : WordSt) (seg : Seg) : WordSt :=
  if seg.text = [] then st
  else rtlWords P (styleOf seg) startX (splitOnSpace seg.text) true st

/-- Embeds `renderTextLine` of `src/utils/pdfTextFormatter.js` (lines 287–383).
Returns the cursor the caller continues from (`currentY + lineHeight`,
together with the current page), the draw calls issued, and the cursor
trace (the returned cursor is not part of the trace; the caller records it
when it assigns the returned value). -/
def renderTextLine (P : TLParams) (segments : List Seg) (c : Cursor) :
    Cursor × List Ev × List Cursor :=
  let startX := P.xPosition + P.bulletIndent
  let bulletEvs : List Ev :=
    if P.bulletIndent > 0 then
      let bulletX := if P.bulletIndent > 15 then P.xPosition + 12 else P.xPosition + 2
      [⟨c.page, bulletX, c.y, .normal, .glyph, ['•']⟩]
    else []
  let stF := segments.foldl (rtlSeg P startX) ⟨startX, c, bulletEvs, []⟩
  (⟨stF.cur.page, stF.cur.y + P.lineHeight⟩, stF.evs, stF.tr)

/-- The options object of `addFormattedText` (only the fields the
embedding uses; `fontSize` and `color` do not influence cursor movement,
wrapping decisions or draw order). -/
structure AFTOpts where
  lineHeight : ℚ := 7
  pageHeight : ℚ := 297

/-- State of the `segments.forEach` loop of `addFormattedText`:
document cursor, pending line segments, `currentBulletIndent`, draw calls,
cursor trace, and the recorded `renderTextLine` invocations
(arguments `(currentLineSegments, currentBulletIndent)` of each call). -/
structure AFTSt where
  cur : Cursor
  pending : List Seg
  bIndent : ℚ
  evs : List Ev
  tr : List Cursor
  calls : List (List Seg × ℚ)

/-- One iteration of the `segments.forEach` loop of `addFormattedText`
(`src/utils/pdfTextFormatter.js`, lines 232–263). -/
def aftStep (measure : FStyle → List Char → ℚ) (xPosition maxWidth : ℚ)
    (o : AFTOpts) (st : AFTSt) (segment : Seg) : AFTSt :=
  if segment.isNewline then
    if st.pending ≠ [] then
      let P : TLParams :=
        ⟨measure, xPosition, maxWidth, o.lineHeight, st.bIndent, o.pageHeight⟩
      let r := renderTextLine P st.pending st.cur
      ⟨r.1, [], 0, st.evs ++ r.2.1, st.tr ++ r.2.2 ++ [r.1],
       st.calls ++ [(st.pending, st.bIndent)]⟩
    else
      -- empty line: paragraph spacing
      let c1 : Cursor := ⟨st.cur.page, st.cur.y + o.lineHeight⟩
      ⟨c1, st.pending, st.bIndent, st.evs, st.tr ++ [c1], st.calls⟩
  else
    let st1 :=
      if segment.isBullet then
        { st with bIndent := if segment.indent = 0 then 8 else segment.indent }
      else st
    { st1 with pending := st1.pending ++ [segment] }

/-- Embeds `addFormattedText` of `src/utils/pdfTextFormatter.js` (lines 220–282):
the segment loop followed by the final flush of any remaining segments. -/
def addFormattedText (measure : FStyle → List Char → ℚ)
    (xPosition maxWidth : ℚ) (o : AFTOpts) (segments : List Seg)
    (yPosition : Cursor) : AFTSt :=
  let st0 : AFTSt := ⟨yPosition, [], 0, [], [], []⟩
  let stF := segments.foldl (aftStep measure xPosition maxWidth o) st0
  if stF.pending ≠ [] then
    let P : TLParams :=
      ⟨measure, xPosition, maxWidth, o.lineHeight, stF.bIndent, o.pageHeight⟩
    let r := renderTextLine P stF.pending stF.cur
    ⟨r.1, [], stF.bIndent, stF.evs ++ r.2.1, stF.tr ++ r.2.2 ++ [r.1],
     stF.calls ++ [(stF.pending, stF.bIndent)]⟩
  else stF

/-- Result of the external `autoTable` call for a table section, as observed
by `downloadMessagePDF` (lines 345–396 of `src/components/ChatResponse.js`):
it throws, or returns without a usable `lastAutoTable.finalY`, or returns
and reports a final y. -/
inductive TableRes where
  | throwErr
  | noFinal
  | finalAt (y : ℚ)

/-- A section of `sectionsToRender`, together with the behaviour of the
external capabilities attached to it:
* `hasRef` — whether `sectionRefs.current[section.id]` resolves;
* for an unformatted text section, `capturedHeight` is the scaled height of
  the successful `html2canvas` capture;
* for a table, `tableFn` maps the start y to the `autoTable` outcome;
* for a chart, `captureRes` is `some` of the scaled image height when
  `html2canvas` succeeds and `none` when it throws. -/
inductive PSection where
  | text (heading : Option (List Char)) (content : List Char)
      (isFormatted hasRef : Bool) (capturedHeight : ℚ)
  | table (heading : Option (List Char)) (hasData : Bool)
      (tableFn : ℚ → TableRes)
  | chart (heading : Option (List Char)) (hasRef : Bool)
      (captureRes : Option ℚ)

/-- Running state of `downloadMessagePDF`: cursor, draw calls, cursor trace. -/
structure RSt where
  cur : Cursor
  evs : List Ev
  tr : List Cursor

/-- Record an assignment to `yPosition` (and/or the page). -/
def setCur (c : Cursor) (st : RSt) : RSt :=
  { st with cur := c, tr := st.tr ++ [c] }

/-- Embeds `yPosition += d`. -/
def addY (d : ℚ) (st : RSt) : RSt :=
  setCur ⟨st.cur.page, st.cur.y + d⟩ st

/-- Issue one draw call. -/
def emitE (e : Ev) (st : RSt) : RSt :=
  { st with evs := st.evs ++ [e] }

/-- Embeds `pdf.addPage(); yPosition = 15;` guarded by `yPosition > threshold`. -/
def breakIfPast (threshold : ℚ) (st : RSt) : RSt :=
  if st.cur.y > threshold then setCur ⟨st.cur.page + 1, 15⟩ st else st

/-- The `if (section.heading) { ... }` block shared by the section branches:
draw the emoji-normalized heading, advance by 3, draw the underline rule,
advance by 8. -/
def renderHeading (heading : Option (List Char)) (st : RSt) : RSt :=
  match heading with
  | none => st
  | some hd =>
    let st1 := emitE ⟨st.cur.page, 15, st.cur.y, .bold, .label, replaceEmojisStr hd⟩ st
    let st2 := addY 3 st1
    addY 8 st2

/-- One iteration of the `for` loop over `sectionsToRender` in
`downloadMessagePDF` (`src/components/ChatResponse.js`, lines 186–450).
Page geometry is A4 portrait in mm: `pageHeight = 297`, `margin = 15`,
`maxWidth = 180`.  Formatted text uses `addFormattedText` with
`lineHeight: 6.5`. -/
def renderSection (measure : FStyle → List Char → ℚ) (st : RSt)
    (s : PSection) : RSt :=
  match s with
  | .text heading content isFormatted hasRef capturedHeight =>
    if hasRef && !isFormatted then
      -- capture the section as an image (lines 239–267)
      let st1 := breakIfPast (297 - 50) st
      let st2 :=
        if st1.cur.y + capturedHeight > 297 - 15 then
          setCur ⟨st1.cur.page + 1, 15⟩ st1
        else st1
      let st3 := emitE ⟨st2.cur.page, 15, st2.cur.y, .normal, .image, []⟩ st2
      addY (capturedHeight + 10) st3
    else
      -- formatted-text rendering (lines 201–238, duplicated at 268–305)
      let st1 := breakIfPast (297 - 30) st
      let st2 := renderHeading heading st1
      let a := addFormattedText measure 15 180 ⟨13/2, 297⟩
        (parseFormattedText content) st2.cur
      let st3 : RSt := ⟨a.cur, st2.evs ++ a.evs, st2.tr ++ a.tr⟩
      addY 8 st3
  | .table heading hasData tableFn =>
    let st1 := breakIfPast (297 - 100) st
    let st2 := renderHeading heading st1
    if hasData then
      match tableFn st2.cur.y with
      | .throwErr => addY 50 st2
      | .noFinal =>
        addY 100 (emitE ⟨st2.cur.page, 15, st2.cur.y, .normal, .table, []⟩ st2)
      | .finalAt f =>
        setCur ⟨st2.cur.page, f + 12⟩
          (emitE ⟨st2.cur.page, 15, st2.cur.y, .normal, .table, []⟩ st2)
    else st2
  | .chart heading hasRef captureRes =>
    if hasRef then
      let st1 := breakIfPast (297 - 100) st
      let st2 := renderHeading heading st1
      match captureRes with
      | some h =>
        let st3 :=
          if st2.cur.y + h > 297 - 15 then setCur ⟨st2.cur.page + 1, 15⟩ st2
          else st2
        addY (h + 10) (emitE ⟨st3.cur.page, 15, st3.cur.y, .normal, .image, []⟩ st3)
      | none => addY 50 st2
    else st

/-- The loop over `sectionsToRender`. -/
def runSections (measure : FStyle → List Char → ℚ) (sections : List PSection)
    (st : RSt) : RSt :=
  sections.foldl (renderSection measure) st

/-- Specification predicate for one cursor update: the page never decreases,
the y-coordinate never decreases while the page is unchanged, and whenever
the page advances the new y is exactly the top margin 15. -/
def goodStep (a b : Cursor) : Prop :=
  a.page ≤ b.page ∧ (a.page = b.page → a.y ≤ b.y) ∧ (a.page < b.page → b.y = 15)

/-- Chain: every consecutive pair of the trace (starting from the initial
cursor) is an admissible step. -/
def Chain : Cursor → List Cursor → Prop
  | _, [] => True
  | c, d :: rest => goodStep c d ∧ Chain d rest

/-- Last cursor of a trace, or the start cursor when the trace is empty. -/
def lastD : Cursor → List Cursor → Cursor
  | c, [] => c
  | _, d :: rest => lastD d rest

/-- StepsTo: a computation step extends the cursor trace by an admissible
chain ending in the new cursor. -/
def StepsTo (a b : Cursor × List Cursor) : Prop :=
  ∃ tl, b.2 = a.2 ++ tl ∧ b.1 = lastD a.1 tl ∧ Chain a.1 tl

/-- Modelling hypotheses about the external capabilities attached to one
section: a captured bitmap has nonnegative height, and the external table
renderer reports a final y no smaller than the start y it was given. -/
def SecOK : PSection → Prop
  | .text _ _ _ _ capturedHeight => 0 ≤ capturedHeight
  | .table _ _ tableFn => ∀ y f, tableFn y = .finalAt f → y ≤ f
  | .chart _ _ captureRes => ∀ h, captureRes = some h → 0 ≤ h

/-- Embeds `downloadMessagePDF` of `src/components/ChatResponse.js` (lines 133–469):
title, question and answer preamble, the section loop, and the timestamp
footer.  `qLines` and `aLines` are the line counts reported by
`pdf.splitTextToSize` for the question and the answer. -/
def downloadMessagePDF (measure : FStyle → List Char → ℚ)
    (question answer : List Char) (qLines aLines : ℕ)
    (sections : List PSection) : RSt :=
  let st0 : RSt := ⟨⟨1, 15⟩, [], []⟩
  let st1 := addY 12 (emitE ⟨1, 15, 15, .bold, .label, "Chat Response".toList⟩ st0)
  let st2 := addY 7 (emitE ⟨st1.cur.page, 15, st1.cur.y, .bold, .label, "Question:".toList⟩ st1)
  let st3 := addY ((qLines : ℚ) * 6 + 10)
    (emitE ⟨st2.cur.page, 15, st2.cur.y, .normal, .label, question⟩ st2)
  let st4 := addY 7 (emitE ⟨st3.cur.page, 15, st3.cur.y, .bold, .label, "Answer:".toList⟩ st3)
  let st5 := addY ((aLines : ℚ) * (13/2) + 12)
    (emitE ⟨st4.cur.page, 15, st4.cur.y, .normal, .label, answer⟩ st4)
  let st6 := runSections measure sections st5
  emitE ⟨st6.cur.page, 15, 297 - 10, .italic, .label, "Generated on".toList⟩ st6

end ChatPdf

namespace ChatPdf

theorem concatText_nil : concatText [] = [] := rfl

theorem concatText_flushRun (acc : List Char) (b i : Bool) (rest : List Run) :
    concatText (flushRun acc b i rest) = acc ++ concatText rest := by
  unfold flushRun
  split
  · simp_all [concatText]
  · simp [concatText]

theorem concatText_parseInlineAux (prev : Option Char) (s : List Char)
    (acc : List Char) (b it : Bool) :
    concatText (parseInlineAux prev s acc b it) =
      acc ++ inlineKeptChars prev s := by
  induction prev, s, acc, b, it using parseInlineAux.induct with
  | _ => simp_all [parseInlineAux, inlineKeptChars, concatText_flushRun, concatText_nil]

/-- C2: parsing the inline text `"***x***"` yields exactly one styled run,
with text `"x"`, `bold = true` and `italic = true`; the triple asterisk is
consumed as one token (a `**`-then-`*` reading would instead produce a run
with mismatched flags). -/
theorem c2_triple_asterisk_single_run :
    parseInlineFormatting "***x***".toList = [⟨['x'], true, true⟩] := by decide

/-- C3 counterexample: on the line `"**x"`, whose `**` delimiter has no
matching close, `parseInlineFormatting` consumes the two asterisks (they do
not appear in any run): the only run is `"x"` with `bold = true`, and the
concatenated run text contains no `*` at all.  This contradicts the claim
that unterminated delimiter characters are emitted literally in the output
runs. -/
theorem c3_counterexample :
    parseInlineFormatting "**x".toList = [⟨['x'], true, false⟩] ∧
      '*' ∉ concatText (parseInlineFormatting "**x".toList) := by
  refine ⟨by decide, by decide⟩

/-- C3 amended: for every input line, the characters recognized as delimiter
tokens (`***`, `**`, and a single `*` with non-asterisk neighbours) are
consumed and dropped from the output, while every other character —
including the pending text after an unterminated delimiter, which keeps the
toggled styling — is emitted in order: the concatenation of the run texts is
exactly `inlineKeptChars`, the input minus its recognized delimiters. -/
theorem c3_amended_unterminated_delimiters_consumed (s : List Char) :
    concatText (parseInlineFormatting s) = inlineKeptChars none s := by
  simpa using concatText_parseInlineAux none s [] false false

/-- C4 counterexample: an `undefined` argument (modelled by `none`) is
returned unchanged by `replaceEmojisForPDF` — the result is `undefined`,
not the empty string claimed by the spec. -/
theorem c4_counterexample :
    replaceEmojisForPDF none = none ∧
      (none : Option (List Char)) ≠ some [] := by
  exact ⟨rfl, by decide⟩

/-- C4 amended: the glyph normalizer never throws (it is a total function of
its input: every branch of `replaceEmojisForPDF` returns a value); an
empty-string input yields the empty string, and an `undefined` input is
returned unchanged as `undefined` (the JS guard `if (!text) return text`
returns the falsy input itself). -/
theorem c4_amended_empty_and_undefined :
    replaceEmojisForPDF (some []) = some [] ∧
      replaceEmojisForPDF none = none :=
  ⟨rfl, rfl⟩

/-- C8 counterexample: for the input `"• "` — a bullet line with no content
after the marker is stripped — `parseFormattedText` emits only the line-end
marker: no segment carries the bullet (`isBullet` is false everywhere), so
the bullet is dropped, contradicting the claim that such a line still emits
the bullet marker with an empty run. -/
theorem c8_counterexample :
    parseFormattedText "• ".toList = [nlSeg] ∧
      ∀ s ∈ parseFormattedText "• ".toList, s.isBullet = false := by
  exact ⟨by decide, by decide⟩

/-- C8 amended: a bullet line whose content is empty after marker stripping
contributes only the line-end marker — `parseInlineFormatting` of the empty
content produces no runs, the `forEach` over them pushes nothing, and the
bullet (carried only by run number zero) is lost. -/
theorem c8_amended_empty_bullet_dropped (line : List Char)
    (h1 : isBulletLine (jsTrim line) = true)
    (h2 : jsTrim (stripBulletMarker (jsTrim line)) = []) :
    lineSegments line = [nlSeg] := by
  have hne : jsTrim line ≠ [] := by
    intro h
    rw [h] at h1
    simp [isBulletLine, isNumberedList, headIs] at h1
  simp [lineSegments, hne, h1, h2, parseInlineFormatting, parseInlineAux, flushRun,
    tagSegs]

/-- C8 amended, witness: the line `"• "` satisfies the hypotheses and
produces only the line marker. -/
theorem c8_amended_empty_bullet_dropped_witness :
    lineSegments "• ".toList = [nlSeg] :=
  c8_amended_empty_bullet_dropped "• ".toList (by decide) (by decide)

theorem mem_replaceAllAux {a : Char} {k v : List Char} :
    ∀ fuel s, a ∈ replaceAllAux k v fuel s → a ∈ s ∨ a ∈ v := by
  intro fuel
  induction fuel with
  | zero => intro s h; exact Or.inl h
  | succ n ih =>
    intro s h
    match s with
    | [] => simp [replaceAllAux] at h
    | c :: rest =>
      rw [replaceAllAux] at h
      split at h
      · rcases List.mem_append.mp h with hv | hr
        · exact Or.inr hv
        · rcases ih _ hr with hs | hv
          · exact Or.inl (List.mem_of_mem_drop hs)
          · exact Or.inr hv
      · rcases List.mem_cons.mp h with rfl | hr
        · exact Or.inl (List.mem_cons_self _ _)
        · rcases ih _ hr with hs | hv
          · exact Or.inl (List.mem_cons_of_mem _ hs)
          · exact Or.inr hv

theorem not_mem_replaceAllAux_self {c : Char} {v : List Char} (hv : c ∉ v) :
    ∀ fuel s, s.length ≤ fuel → c ∉ replaceAllAux [c] v fuel s := by
  intro fuel
  induction fuel with
  | zero =>
    intro s hl
    interval_cases h : s.length
    · rw [List.length_eq_zero] at h
      subst h
      simp [replaceAllAux]
  | succ n ih =>
    intro s hl h
    match s with
    | [] => simp [replaceAllAux] at h
    | d :: rest =>
      rw [replaceAllAux] at h
      split at h
      next hcond =>
        rcases List.mem_append.mp h with h1 | h1
        · exact hv h1
        · have : rest.length ≤ n := by
            simpa using Nat.le_of_succ_le_succ hl
          have hpre := hcond.2
          rw [ List.isPrefixOf_iff_prefix] at hpre
          have hd : d = c := by
            rcases hpre with ⟨t, ht⟩
            simpa using congrArg (fun l => l.head?) ht.symm
          simp only [List.length_singleton, List.drop_one, List.tail_cons] at h1
          exact ih rest this h1
      next hcond =>
        rcases List.mem_cons.mp h with rfl | h1
        · apply hcond
          constructor
          · simp
          · rw [ List.isPrefixOf_iff_prefix]
            exact ⟨rest, rfl⟩
        · have : rest.length ≤ n := Nat.le_of_succ_le_succ hl
          exact ih rest this h1

theorem replaceAllAux_of_no_occurrence {k v : List Char} :
    ∀ fuel s, ¬ (k <:+: s) → replaceAllAux k v fuel s = s := by
  intro fuel
  induction fuel with
  | zero => intro s _; rfl
  | succ n ih =>
    intro s hinf
    match s with
    | [] => rfl
    | c :: rest =>
      rw [replaceAllAux]
      split
      next hcond =>
        exfalso
        apply hinf
        have := hcond.2
        rw [ List.isPrefixOf_iff_prefix] at this
        exact this.isInfix
      next =>
        rw [ih rest]
        intro h
        exact hinf (h.trans (List.suffix_cons c rest).isInfix)

theorem mem_replaceAll {a : Char} {k v s : List Char} :
    a ∈ replaceAll k v s → a ∈ s ∨ a ∈ v :=
  mem_replaceAllAux s.length s

theorem not_mem_replaceAll_self {c : Char} {v : List Char} (hv : c ∉ v)
    (s : List Char) : c ∉ replaceAll [c] v s :=
  not_mem_replaceAllAux_self hv s.length s le_rfl

theorem replaceAll_of_no_occurrence {k v s : List Char} (h : ¬ (k <:+: s)) :
    replaceAll k v s = s :=
  replaceAllAux_of_no_occurrence s.length s h

theorem not_mem_foldReplace_of {c : Char} :
    ∀ (L : List (List Char × List Char)) (s : List Char), c ∉ s →
      (∀ p ∈ L, c ∉ p.2) → c ∉ foldReplace L s := by
  intro L
  induction L with
  | nil => intro s hs _; exact hs
  | cons q L2 ih =>
    intro s hs hv
    have h1 : c ∉ replaceAll q.1 q.2 s := by
      intro h
      rcases mem_replaceAll h with h | h
      · exact hs h
      · exact hv q (List.mem_cons_self _ _) h
    exact ih _ h1 (fun p hp => hv p (List.mem_cons_of_mem _ hp))

theorem not_mem_foldReplace_of_key {c : Char} :
    ∀ (L : List (List Char × List Char)) (s : List Char),
      (∃ v, ([c], v) ∈ L) → (∀ p ∈ L, c ∉ p.2) → c ∉ foldReplace L s := by
  intro L
  induction L with
  | nil => rintro s ⟨v, hv⟩ _; simp at hv
  | cons q L2 ih =>
    rintro s ⟨v, hkv⟩ hv
    rcases List.mem_cons.mp hkv with rfl | hmem
    · have h1 : c ∉ replaceAll [c] v s :=
        not_mem_replaceAll_self (hv ([c], v) (List.mem_cons_self _ _)) s
      exact not_mem_foldReplace_of L2 _ h1 (fun p hp => hv p (List.mem_cons_of_mem _ hp))
    · exact ih _ ⟨v, hmem⟩ (fun p hp => hv p (List.mem_cons_of_mem _ hp))

theorem foldReplace_of_no_key_occurs :
    ∀ (L : List (List Char × List Char)) (s : List Char),
      (∀ p ∈ L, ¬ (p.1 <:+: s)) → foldReplace L s = s := by
  intro L
  induction L with
  | nil => intro s _; rfl
  | cons q L2 ih =>
    intro s h
    have h1 : replaceAll q.1 q.2 s = s :=
      replaceAll_of_no_occurrence (h q (List.mem_cons_self _ _))
    show foldReplace L2 (replaceAll q.1 q.2 s) = s
    rw [h1]
    exact ih s (fun p hp => h p (List.mem_cons_of_mem _ hp))

theorem not_infix_of_not_mem {a : Char} {k s : List Char}
    (ha : a ∈ k) (hs : a ∉ s) : ¬ (k <:+: s) := by
  intro h
  exact hs (h.sublist.subset ha)

theorem mem_of_mem_stripEmojiRanges {a : Char} {s : List Char}
    (h : a ∈ stripEmojiRanges s) : a ∈ s :=
  List.mem_of_mem_filter h

theorem not_mem_stripEmojiRanges {c : Char} (hc : inEmojiRanges c = true)
    (s : List Char) : c ∉ stripEmojiRanges s := by
  intro h
  have := List.of_mem_filter h
  simp [hc] at this

theorem stripEmojiRanges_of_clean {s : List Char}
    (h : ∀ c ∈ s, inEmojiRanges c = false) : stripEmojiRanges s = s := by
  apply List.filter_eq_self.mpr
  intro c hc
  simp [h c hc]

theorem emoji_vals_ascii :
    ∀ p ∈ EMOJI_REPLACEMENTS, ∀ a ∈ p.2, a.toNat < 128 := by decide

theorem emoji_keys_classified :
    ∀ p ∈ EMOJI_REPLACEMENTS,
      (p.1.length = 1 ∧ ∀ c ∈ p.1, 128 ≤ c.toNat) ∨
      (∃ c ∈ p.1, inEmojiRanges c = true) := by decide

theorem normalized_no_key_occurs {k v : List Char}
    (hm : (k, v) ∈ EMOJI_REPLACEMENTS) (s : List Char) :
    ¬ (k <:+: stripEmojiRanges (foldReplace EMOJI_REPLACEMENTS s)) := by
  rcases emoji_keys_classified (k, v) hm with ⟨hlen, hbig⟩ | ⟨c, hck, hcr⟩
  · rcases List.length_eq_one.mp hlen with ⟨c, rfl⟩
    have hc : 128 ≤ c.toNat := hbig c (List.mem_cons_self _ _)
    have hnv : ∀ p ∈ EMOJI_REPLACEMENTS, c ∉ p.2 := by
      intro p hp hcv
      exact absurd hc (by simpa using Nat.not_le.mpr (emoji_vals_ascii p hp c hcv))
    have h1 : c ∉ foldReplace EMOJI_REPLACEMENTS s :=
      not_mem_foldReplace_of_key _ _ ⟨v, hm⟩ hnv
    have h2 : c ∉ stripEmojiRanges (foldReplace EMOJI_REPLACEMENTS s) :=
      fun h => h1 (mem_of_mem_stripEmojiRanges h)
    exact not_infix_of_not_mem (List.mem_cons_self _ _) h2
  · exact not_infix_of_not_mem hck (not_mem_stripEmojiRanges hcr _)

/-- C5: the glyph normalizer is idempotent — for every string `s`,
normalizing an already-normalized string is a no-op.  After one pass, no
replacement key occurs in the output (single-code-point keys are fully
replaced and never reintroduced; keys whose code point lies in the fallback
ranges are stripped), and no code point of the fallback ranges remains, so
the second pass changes nothing. -/
theorem c5_replaceEmojis_idempotent (s : List Char) :
    replaceEmojisForPDF (replaceEmojisForPDF (some s)) =
      replaceEmojisForPDF (some s) := by
  by_cases hs : s = []
  · subst hs; rfl
  · rw [replaceEmojisForPDF, if_neg hs]
    set t := stripEmojiRanges (foldReplace EMOJI_REPLACEMENTS s) with ht
    rw [replaceEmojisForPDF]
    by_cases hte : t = []
    · rw [if_pos hte]
    · rw [if_neg hte]
      have h1 : foldReplace EMOJI_REPLACEMENTS t = t := by
        apply foldReplace_of_no_key_occurs
        intro p hp
        exact normalized_no_key_occurs (k := p.1) (v := p.2) hp s
      have h2 : stripEmojiRanges t = t := by
        apply stripEmojiRanges_of_clean
        intro c hc
        rw [ht] at hc
        have := List.of_mem_filter hc
        simpa using this
      rw [h1, h2]

theorem tagSegs_shape (isB : Bool) (ind : ℚ) (isSub : Bool) (runs : List Run) :
    tagSegs isB ind isSub runs = [] ∨
      ∃ r rs, tagSegs isB ind isSub runs = r :: rs ∧
        r.isNewline = false ∧ r.isBullet = isB ∧ r.indent = ind ∧
        r.isSubBullet = isSub ∧
        (∀ s ∈ rs, s.isNewline = false ∧ s.isBullet = false) := by
  cases runs with
  | nil => exact Or.inl rfl
  | cons r0 rs0 =>
    right
    refine ⟨_, _, rfl, rfl, rfl, rfl, rfl, ?_⟩
    intro s hs
    rcases List.mem_map.mp hs with ⟨q, _, rfl⟩
    exact ⟨rfl, rfl⟩

theorem lineSegments_shape (ℓ : List Char) :
    lineSegments ℓ = [nlSeg] ∨
      ∃ r rs, lineSegments ℓ = r :: rs ++ [nlSeg] ∧
        r.isNewline = false ∧
        (∀ s ∈ rs, s.isNewline = false ∧ s.isBullet = false) ∧
        (r.isBullet = true →
          (r.indent = 8 ∧ r.isSubBullet = false) ∨
          (r.indent = 20 ∧ r.isSubBullet = true)) := by
  by_cases h : jsTrim ℓ = []
  · left; simp [lineSegments, h]
  · have hdef : lineSegments ℓ =
        tagSegs (isBulletLine (jsTrim ℓ))
          (if isBulletLine (jsTrim ℓ) then (if headIs '\t' ℓ then 20 else 8) else 0)
          (headIs '\t' ℓ && isBulletLine (jsTrim ℓ))
          (parseInlineFormatting
            (jsTrim (if isBulletLine (jsTrim ℓ) then stripBulletMarker (jsTrim ℓ)
              else ℓ))) ++ [nlSeg] := by
      simp [lineSegments, h]
    rcases tagSegs_shape (isBulletLine (jsTrim ℓ))
        (if isBulletLine (jsTrim ℓ) then (if headIs '\t' ℓ then 20 else 8) else 0)
        (headIs '\t' ℓ && isBulletLine (jsTrim ℓ))
        (parseInlineFormatting
          (jsTrim (if isBulletLine (jsTrim ℓ) then stripBulletMarker (jsTrim ℓ)
            else ℓ)))
      with htag | ⟨r, rs, htag, h1, h2, h3, h4, h5⟩
    · left; rw [hdef, htag]; rfl
    · right
      refine ⟨r, rs, by rw [hdef, htag], h1, h5, ?_⟩
      intro hbu
      rw [h2] at hbu
      by_cases hT : headIs '\t' ℓ
      · right
        constructor
        · rw [h3, if_pos hbu, if_pos hT]
        · rw [h4, hT, hbu]; rfl
      · left
        constructor
        · rw [h3, if_pos hbu, if_neg hT]
        · rw [h4, hbu]
          simp [Bool.not_eq_true] at hT
          rw [hT]
          rfl

theorem foldl_aftStep_plain (m : FStyle → List Char → ℚ) (x w : ℚ) (o : AFTOpts) :
    ∀ (rest : List Seg) (st : AFTSt),
      (∀ s ∈ rest, s.isNewline = false ∧ s.isBullet = false) →
      rest.foldl (aftStep m x w o) st = { st with pending := st.pending ++ rest } := by
  intro rest
  induction rest with
  | nil => intro st _; simp
  | cons a l ih =>
    intro st h
    have ha := h a (List.mem_cons_self _ _)
    rw [List.foldl_cons,
      show aftStep m x w o st a = { st with pending := st.pending ++ [a] } by
        simp [aftStep, ha.1, ha.2],
      ih _ (fun s hs => h s (List.mem_cons_of_mem _ hs))]
    simp

theorem callGood_of_line (r : Seg) (rs : List Seg)
    (hrs : ∀ s ∈ rs, s.isNewline = false ∧ s.isBullet = false)
    (hrb : r.isBullet = true →
      (r.indent = 8 ∧ r.isSubBullet = false) ∨
      (r.indent = 20 ∧ r.isSubBullet = true)) :
    CallGood (r :: rs,
      if r.isBullet then (if r.indent = 0 then 8 else r.indent) else 0) := by
  by_cases hbu : r.isBullet
  · rcases hrb hbu with ⟨h8, hsub⟩ | ⟨h20, hsub⟩
    · refine ⟨?_, ?_, ?_⟩
      · rintro ⟨s, hs, hsb, hss⟩
        rcases List.mem_cons.mp hs with rfl | hs
        · rw [hsub] at hss; cases hss
        · rw [(hrs s hs).2] at hsb; cases hsb
      · intro _
        simp [hbu, h8]
      · intro hall
        have := hall r (List.mem_cons_self _ _)
        rw [hbu] at this; cases this
    · refine ⟨?_, ?_, ?_⟩
      · intro _
        simp [hbu, h20]
      · rintro ⟨s, hs, hsb, hss⟩
        rcases List.mem_cons.mp hs with rfl | hs
        · rw [hsub] at hss; cases hss
        · rw [(hrs s hs).2] at hsb; cases hsb
      · intro hall
        have := hall r (List.mem_cons_self _ _)
        rw [hbu] at this; cases this
  · refine ⟨?_, ?_, ?_⟩
    · rintro ⟨s, hs, hsb, _⟩
      rcases List.mem_cons.mp hs with rfl | hs
      · exact absurd hsb hbu
      · rw [(hrs s hs).2] at hsb; cases hsb
    · rintro ⟨s, hs, hsb, _⟩
      rcases List.mem_cons.mp hs with rfl | hs
      · exact absurd hsb hbu
      · rw [(hrs s hs).2] at hsb; cases hsb
    · intro _
      simp [hbu]

theorem aft_line_calls (m : FStyle → List Char → ℚ) (x w : ℚ) (o : AFTOpts)
    (line : List Char) (st : AFTSt) (hp : st.pending = []) (hb : st.bIndent = 0) :
    ((lineSegments line).foldl (aftStep m x w o) st).pending = [] ∧
      ((lineSegments line).foldl (aftStep m x w o) st).bIndent = 0 ∧
      ∀ call ∈ ((lineSegments line).foldl (aftStep m x w o) st).calls,
        call ∈ st.calls ∨ CallGood call := by
  rcases lineSegments_shape line with hsh | ⟨r, rs, hsh, hrn, hrs, hrb⟩
  · have hstep : aftStep m x w o st nlSeg =
        { st with
          cur := ⟨st.cur.page, st.cur.y + o.lineHeight⟩,
          tr := st.tr ++ [⟨st.cur.page, st.cur.y + o.lineHeight⟩] } := by
      simp [aftStep, nlSeg, hp]
    rw [hsh, List.foldl_cons, List.foldl_nil, hstep]
    exact ⟨hp, hb, fun call hc => Or.inl hc⟩
  · have hstep : aftStep m x w o st r =
        { st with
          pending := [r],
          bIndent := if r.isBullet then (if r.indent = 0 then 8 else r.indent) else 0 } := by
      by_cases hbu : r.isBullet <;> simp [aftStep, hrn, hbu, hp, hb]
    rw [hsh]
    simp only [List.foldl_cons, List.foldl_append, List.foldl_nil]
    rw [hstep]
    rw [foldl_aftStep_plain m x w o rs _ hrs]
    refine ⟨by simp [aftStep, nlSeg], by simp [aftStep, nlSeg], ?_⟩
    intro call hc
    simp only [aftStep, nlSeg, if_pos rfl] at hc
    simp only [List.singleton_append, ne_eq, reduceCtorEq, not_false_eq_true,
      if_true, List.mem_append, List.mem_singleton] at hc
    rcases hc with hc | hc
    · exact Or.inl hc
    · right
      rw [hc]
      exact callGood_of_line r rs hrs hrb

theorem aft_lines_calls (m : FStyle → List Char → ℚ) (x w : ℚ) (o : AFTOpts) :
    ∀ (lines : List (List Char)) (st : AFTSt),
      st.pending = [] → st.bIndent = 0 →
      (((lines.map lineSegments).flatten).foldl (aftStep m x w o) st).pending = [] ∧
        (((lines.map lineSegments).flatten).foldl (aftStep m x w o) st).bIndent = 0 ∧
        ∀ call ∈ (((lines.map lineSegments).flatten).foldl (aftStep m x w o) st).calls,
          call ∈ st.calls ∨ CallGood call := by
  intro lines
  induction lines with
  | nil =>
    intro st hp hb
    exact ⟨hp, hb, fun call hc => Or.inl hc⟩
  | cons ℓ ls ih =>
    intro st hp hb
    rw [List.map_cons, List.flatten_cons, List.foldl_append]
    obtain ⟨h1, h2, h3⟩ := aft_line_calls m x w o ℓ st hp hb
    obtain ⟨g1, g2, g3⟩ := ih ((lineSegments ℓ).foldl (aftStep m x w o) st) h1 h2
    refine ⟨g1, g2, ?_⟩
    intro call hc
    rcases g3 call hc with hmem | hgood
    · exact h3 call hmem
    · exact Or.inr hgood

/-- C7: in `addFormattedText` applied to any output of `parseFormattedText`,
every recorded `renderTextLine` call uses bullet indent 20 when the line is a
tab-prefixed (sub-)bullet, 8 when it is a bullet without a leading tab —
strictly smaller than 20 — and 0 when the line carries no bullet at all: the
indent of a bulleted line never persists onto a following non-bulleted
line. -/
theorem c7_bullet_indent_levels (m : FStyle → List Char → ℚ) (x w : ℚ)
    (o : AFTOpts) (t : List Char) (c : Cursor) :
    ∀ call ∈ (addFormattedText m x w o (parseFormattedText t) c).calls,
      CallGood call ∧ (8 : ℚ) < 20 := by
  intro call hc
  refine ⟨?_, by norm_num⟩
  unfold addFormattedText at hc
  obtain ⟨h1, h2, h3⟩ := aft_lines_calls m x w o (splitOnNl (replaceEmojisStr t))
    ⟨c, [], 0, [], [], []⟩ rfl rfl
  rw [show parseFormattedText t =
      ((splitOnNl (replaceEmojisStr t)).map lineSegments).flatten from rfl] at hc
  simp only [h1, ne_eq, not_true_eq_false, reduceIte, if_false] at hc
  rcases h3 call hc with hmem | hgood
  · simp at hmem
  · exact hgood

/-- C7 witness: the single bulleted line `"• a"` is rendered through one
`renderTextLine` call whose recorded arguments satisfy the indent
discipline. -/
theorem c7_bullet_indent_levels_witness :
    CallGood ([⟨['a'], false, false, false, true, 8, false⟩], 8) ∧ (8 : ℚ) < 20 :=
  c7_bullet_indent_levels (fun _ _ => 0) 15 180 {} "• a".toList ⟨1, 15⟩
    ([⟨['a'], false, false, false, true, 8, false⟩], 8) (by decide)

theorem dropWhile_append_all {p : Char → Bool} {l1 l2 : List Char}
    (h : ∀ a ∈ l1, p a = true) :
    (l1 ++ l2).dropWhile p = l2.dropWhile p := by
  rw [List.dropWhile_append, List.dropWhile_eq_nil_iff.mpr h]
  rfl

theorem jsTrim_cons_ws {c : Char} (h : isWS c = true) (s : List Char) :
    jsTrim (c :: s) = jsTrim s := by
  simp [jsTrim, List.dropWhile_cons, h]

theorem jsTrim_ws_pad_left {pad : List Char} (h : ∀ c ∈ pad, isWS c = true)
    (s : List Char) : jsTrim (pad ++ s) = jsTrim s := by
  simp [jsTrim, dropWhile_append_all h]

theorem jsTrim_ws_suffix {pad : List Char} (h : ∀ c ∈ pad, isWS c = true)
    (s : List Char) : jsTrim (s ++ pad) = jsTrim s := by
  unfold jsTrim
  rcases hdw : s.dropWhile isWS with _ | ⟨d, ds⟩
  · have hall : ∀ a ∈ s, isWS a = true := List.dropWhile_eq_nil_iff.mp hdw
    have h1 : (s ++ pad).dropWhile isWS = [] := by
      rw [dropWhile_append_all hall, List.dropWhile_eq_nil_iff.mpr h]
    rw [h1]
  · have h1 : (s ++ pad).dropWhile isWS = (d :: ds) ++ pad := by
      rw [List.dropWhile_append, hdw]
      rfl
    rw [h1, List.reverse_append, dropWhile_append_all (by simpa using h)]

theorem headIs_append_left {a : Char} {line pad : List Char} (h : line ≠ []) :
    headIs a (line ++ pad) = headIs a line := by
  cases line with
  | nil => exact absurd rfl h
  | cons c rest => rfl

theorem tagSegs_map_promote (ind : ℚ) (runs : List Run) :
    (tagSegs true ind false runs).map
      (fun s => if s.isNewline then s
        else { s with indent := 20, isSubBullet := true }) =
      tagSegs true 20 true runs := by
  cases runs with
  | nil => rfl
  | cons r rs =>
    simp only [tagSegs, List.map_cons, List.map_map]
    refine List.cons_eq_cons.mpr ⟨rfl, ?_⟩
    apply List.map_congr_left
    intro q _
    rfl

theorem lineSegments_eq (line : List Char) : lineSegments line =
    if jsTrim line = [] then [nlSeg]
    else
      tagSegs (isBulletLine (jsTrim line))
        (if isBulletLine (jsTrim line) then (if headIs '\t' line then 20 else 8)
          else 0)
        (headIs '\t' line && isBulletLine (jsTrim line))
        (parseInlineFormatting
          (jsTrim (if isBulletLine (jsTrim line) then
            stripBulletMarker (jsTrim line) else line))) ++ [nlSeg] := by
  by_cases h : jsTrim line = [] <;> simp [lineSegments, h]

/-- C10: per-line whitespace handling of `parseFormattedText`.
(1) Trailing whitespace is trimmed away before inline tokenization: padding a
line with trailing whitespace changes no emitted segment.  (2) Leading
spaces are likewise trimmed away: prepending spaces to a line that does not
start with a tab changes no emitted segment (so indentation whitespace never
appears in any run's text).  (3) A leading tab influences the output only on
bullet lines, where it selects the sub-bullet indent 20 in place of 8 (every
non-marker segment gets `indent := 20, isSubBullet := true`); on a
non-bullet line a leading tab changes nothing. -/
theorem c10_whitespace_trimming :
    (∀ (line pad : List Char), (∀ c ∈ pad, isWS c = true) →
      lineSegments (line ++ pad) = lineSegments line) ∧
    (∀ (line pad : List Char), (∀ c ∈ pad, c = ' ') →
      headIs '\t' line = false →
      lineSegments (pad ++ line) = lineSegments line) ∧
    (∀ line : List Char, headIs '\t' line = false →
      lineSegments ('\t' :: line) =
        if isBulletLine (jsTrim line) then
          (lineSegments line).map
            (fun s => if s.isNewline then s
              else { s with indent := 20, isSubBullet := true })
        else lineSegments line) := by
  refine ⟨?_, ?_, ?_⟩
  · intro line pad hws
    have htr : jsTrim (line ++ pad) = jsTrim line := jsTrim_ws_suffix hws line
    rw [lineSegments_eq, lineSegments_eq, htr]
    by_cases h : jsTrim line = []
    · rw [if_pos h, if_pos h]
    · have hlne : line ≠ [] := by
        intro hnil
        exact h (by simp [hnil, jsTrim])
      rw [if_neg h, if_neg h, headIs_append_left hlne]
      by_cases hB : isBulletLine (jsTrim line)
      · simp [hB]
      · simp [hB, htr]
  · intro line pad hsp hT
    have hws : ∀ c ∈ pad, isWS c = true := by
      intro c hc
      rw [hsp c hc]
      rfl
    have htr : jsTrim (pad ++ line) = jsTrim line := jsTrim_ws_pad_left hws line
    have hhead : headIs '\t' (pad ++ line) = false := by
      cases pad with
      | nil => exact hT
      | cons c cs =>
        rw [hsp c (List.mem_cons_self _ _)]
        rfl
    rw [lineSegments_eq, lineSegments_eq, htr, hhead, hT]
    by_cases h : jsTrim line = []
    · rw [if_pos h, if_pos h]
    · rw [if_neg h, if_neg h]
      by_cases hB : isBulletLine (jsTrim line)
      · simp [hB]
      · simp [hB, htr]
  · intro line hT
    have htab : isWS '\t' = true := rfl
    have htr : jsTrim ('\t' :: line) = jsTrim line := jsTrim_cons_ws htab line
    have hhead : headIs '\t' ('\t' :: line) = true := rfl
    by_cases h : jsTrim line = []
    · rw [lineSegments_eq, lineSegments_eq, htr, if_pos h, if_pos h]
      have hB : isBulletLine (jsTrim line) = false := by
        rw [h]; rfl
      rw [hB]
      rfl
    · by_cases hB : isBulletLine (jsTrim line)
      · rw [if_pos hB, lineSegments_eq, lineSegments_eq, htr, hhead, hT, hB]
        simp [h, List.map_append, tagSegs_map_promote, nlSeg]
      · rw [if_neg hB, lineSegments_eq, lineSegments_eq, htr, hhead, hT]
        simp [h, hB, htr]

theorem rtlWord_evs (P : TLParams) (style : FStyle) (startX : ℚ)
    (isFirst : Bool) (word : List Char) (st : WordSt) :
    ∃ new, (rtlWord P style startX isFirst word st).evs = st.evs ++ new ∧
      ∀ e ∈ new, WordEvOk P startX e := by
  unfold rtlWord
  dsimp only
  split_ifs with hta hw hpb hbul hwf hpbf hbulf
  · refine ⟨[⟨st.cur.page + 1, P.xPosition + 2, 15, .normal, .glyph, ['•']⟩,
      ⟨st.cur.page + 1, startX, 15, style, .word, word⟩], by simp, ?_⟩
    intro e he
    rcases List.mem_cons.mp he with rfl | he
    · intro hk; cases hk
    · rcases List.mem_cons.mp he with rfl | he
      · intro _; exact Or.inr rfl
      · simp at he
  · refine ⟨[⟨st.cur.page + 1, startX, 15, style, .word, word⟩], by simp, ?_⟩
    intro e he
    rcases List.mem_cons.mp he with rfl | he
    · intro _; exact Or.inr rfl
    · simp at he
  · refine ⟨[⟨st.cur.page, startX, st.cur.y + P.lineHeight, style, .word, word⟩],
      by simp, ?_⟩
    intro e he
    rcases List.mem_cons.mp he with rfl | he
    · intro _; exact Or.inr rfl
    · simp at he
  · refine ⟨[⟨st.cur.page, st.x, st.cur.y, style, .word, ' ' :: word⟩], by simp, ?_⟩
    intro e he
    rcases List.mem_cons.mp he with rfl | he
    · intro _
      exact Or.inl (not_lt.mp hw)
    · simp at he
  · refine ⟨[⟨st.cur.page + 1, P.xPosition + 2, 15, .normal, .glyph, ['•']⟩,
      ⟨st.cur.page + 1, startX, 15, style, .word, word⟩], by simp, ?_⟩
    intro e he
    rcases List.mem_cons.mp he with rfl | he
    · intro hk; cases hk
    · rcases List.mem_cons.mp he with rfl | he
      · intro _; exact Or.inr rfl
      · simp at he
  · refine ⟨[⟨st.cur.page + 1, startX, 15, style, .word, word⟩], by simp, ?_⟩
    intro e he
    rcases List.mem_cons.mp he with rfl | he
    · intro _; exact Or.inr rfl
    · simp at he
  · refine ⟨[⟨st.cur.page, startX, st.cur.y + P.lineHeight, style, .word, word⟩],
      by simp, ?_⟩
    intro e he
    rcases List.mem_cons.mp he with rfl | he
    · intro _; exact Or.inr rfl
    · simp at he
  · refine ⟨[⟨st.cur.page, st.x, st.cur.y, style, .word, word⟩], by simp, ?_⟩
    intro e he
    rcases List.mem_cons.mp he with rfl | he
    · intro _
      exact Or.inl (not_lt.mp hwf)
    · simp at he

theorem rtlWords_evOk (P : TLParams) (style : FStyle) (startX : ℚ) :
    ∀ (words : List (List Char)) (isFirst : Bool) (st : WordSt),
      (∀ e ∈ st.evs, WordEvOk P startX e) →
      ∀ e ∈ (rtlWords P style startX words isFirst st).evs, WordEvOk P startX e := by
  intro words
  induction words with
  | nil => intro isFirst st h; exact h
  | cons w rest ih =>
    intro isFirst st h
    rw [rtlWords]
    apply ih
    obtain ⟨new, hnew, hok⟩ := rtlWord_evs P style startX isFirst w st
    rw [hnew]
    intro e he
    rcases List.mem_append.mp he with he | he
    · exact h e he
    · exact hok e he

theorem rtlSegs_evOk (P : TLParams) (startX : ℚ) :
    ∀ (segs : List Seg) (st : WordSt),
      (∀ e ∈ st.evs, WordEvOk P startX e) →
      ∀ e ∈ (segs.foldl (rtlSeg P startX) st).evs, WordEvOk P startX e := by
  intro segs
  induction segs with
  | nil => intro st h; exact h
  | cons sg rest ih =>
    intro st h
    rw [List.foldl_cons]
    apply ih
    unfold rtlSeg
    split_ifs
    · exact h
    · exact rtlWords_evOk P (styleOf sg) startX (splitOnSpace sg.text) true st h

/-- C6 amended: every word drawn by `renderTextLine` either ends within
`xPosition + maxWidth - 5` (the source's wrap threshold), or is drawn at the
indented line start `xPosition + bulletIndent` — the position used for a
word drawn immediately after a wrap, which is issued without any check that
the word itself fits, so a single word wider than the column may overflow
it. -/
theorem c6_amended_wordwrap_boundary (P : TLParams) (segments : List Seg)
    (c : Cursor) :
    ∀ e ∈ (renderTextLine P segments c).2.1, e.kind = EvKind.word →
      e.x + P.measure e.style e.txt ≤ P.xPosition + P.maxWidth - 5 ∨
        e.x = P.xPosition + P.bulletIndent := by
  intro e he
  unfold renderTextLine at he
  dsimp only at he
  refine rtlSegs_evOk P (P.xPosition + P.bulletIndent) segments _ ?_ e he
  intro e2 he2
  split_ifs at he2 <;>
    first
      | (rcases List.mem_singleton.mp he2 with rfl; intro hk; cases hk)
      | simp at he2

/-- C6 amended witness: a two-character word under a character-count width
measure fits the column and is drawn within the limit. -/
theorem c6_amended_wordwrap_boundary_witness :
    (15 : ℚ) +
        ((fun (_ : FStyle) (t : List Char) => (t.length : ℚ)) FStyle.normal
          "hi".toList) ≤ 15 + 180 - 5 ∨
      (15 : ℚ) = 15 + 0 := by
  have hevs : (renderTextLine ⟨fun _ t => (t.length : ℚ), 15, 180, 7, 0, 297⟩
      [{ text := "hi".toList }] ⟨1, 15⟩).2.1 =
      [⟨1, 15, 15, .normal, .word, "hi".toList⟩] := by
    norm_num [renderTextLine, rtlSeg, rtlWords, rtlWord, splitOnSpace, styleOf]
    simp
  exact c6_amended_wordwrap_boundary
    ⟨fun _ t => (t.length : ℚ), 15, 180, 7, 0, 297⟩ [{ text := "hi".toList }]
    ⟨1, 15⟩ ⟨1, 15, 15, .normal, .word, "hi".toList⟩
    (by rw [hevs]; exact List.mem_singleton.mpr rfl) rfl

/-- C6 counterexample: with `xPosition = 15`, `maxWidth = 180` and a width
measure that reports 200 for every string, the single word `"w"` triggers a
wrap and is then drawn at `x = 15` although its measured width 200 extends
to 215, beyond `origin.x + maxWidth = 195` — the engine does draw text
extending beyond the column limit. -/
theorem c6_counterexample :
    (renderTextLine ⟨fun _ _ => 200, 15, 180, 7, 0, 297⟩ [{ text := ['w'] }]
        ⟨1, 15⟩).2.1 =
      [⟨1, 15, 22, FStyle.normal, EvKind.word, ['w']⟩] ∧
      (15 : ℚ) + 200 > 15 + 180 := by
  refine ⟨?_, by norm_num⟩
  norm_num [renderTextLine, rtlSeg, rtlWords, rtlWord, splitOnSpace, styleOf]

/-- C9 counterexample: a chart section whose capture handle does not resolve
(`sectionRefs` lookup misses, `hasRef = false`) is skipped with **no**
cursor advance at all — the cursor stays at 15 instead of advancing by the
claimed fallback height 50. -/
theorem c9_counterexample :
    (renderSection (fun _ _ => 0) ⟨⟨1, 15⟩, [], []⟩
        (PSection.chart none false none)).cur.y = 15 ∧
      (15 : ℚ) ≠ 15 + 50 :=
  ⟨rfl, by norm_num⟩

/-- C9 amended: the document-generation run never aborts on a chart failure.
When the bitmap capture throws (`captureRes = none`, handle present, no
heading), the chart contributes no draw call, the cursor advances by exactly
the fallback height 50 (after the usual page-break guard), and all
preceding and following sections are still rendered in their original order
around it.  When instead the capture handle fails to resolve
(`hasRef = false`), the block is skipped entirely, leaving the state
unchanged — with no 50-unit advance. -/
theorem c9_amended_chart_capture_failure (m : FStyle → List Char → ℚ)
    (pre post : List PSection) (st : RSt) :
    runSections m (pre ++ PSection.chart none true none :: post) st =
      runSections m post
        (renderSection m (runSections m pre st) (PSection.chart none true none)) ∧
      (∀ st2 : RSt,
        (renderSection m st2 (PSection.chart none true none)).evs = st2.evs) ∧
      (∀ st2 : RSt,
        (renderSection m st2 (PSection.chart none true none)).cur =
          if st2.cur.y > 297 - 100 then ⟨st2.cur.page + 1, 15 + 50⟩
          else ⟨st2.cur.page, st2.cur.y + 50⟩) ∧
      (∀ (st2 : RSt) (heading : Option (List Char)) (capR : Option ℚ),
        renderSection m st2 (PSection.chart heading false capR) = st2) := by
  refine ⟨?_, ?_, ?_, ?_⟩
  · simp [runSections, List.foldl_append]
  · intro st2
    simp only [renderSection, breakIfPast, renderHeading, addY, setCur]
    split_ifs <;> rfl
  · intro st2
    simp only [renderSection, breakIfPast, renderHeading, addY, setCur]
    split_ifs <;> rfl
  · intro st2 heading capR
    simp [renderSection]

/-- C10 witness: concrete instances of the three whitespace properties —
trailing blanks, leading spaces, and a leading tab on a bullet and on a
plain line. -/
theorem c10_whitespace_trimming_witness :
    lineSegments "ab  ".toList = lineSegments "ab".toList ∧
      lineSegments "  ab".toList = lineSegments "ab".toList ∧
      lineSegments ("\t• a".toList) =
        (lineSegments "• a".toList).map
          (fun s => if s.isNewline then s
            else { s with indent := 20, isSubBullet := true }) := by
  refine ⟨?_, ?_, ?_⟩
  · exact c10_whitespace_trimming.1 "ab".toList "  ".toList (by decide)
  · exact c10_whitespace_trimming.2.1 "ab".toList "  ".toList (by decide) (by decide)
  · have h := c10_whitespace_trimming.2.2 "• a".toList (by decide)
    rw [if_pos (by decide)] at h
    exact h

theorem goodStep_add {c : Cursor} {d : ℚ} (hd : 0 ≤ d) :
    goodStep c ⟨c.page, c.y + d⟩ :=
  ⟨le_rfl, fun _ => le_add_of_nonneg_right hd, fun h => absurd h (lt_irrefl _)⟩

theorem goodStep_le {c : Cursor} {z : ℚ} (hz : c.y ≤ z) :
    goodStep c ⟨c.page, z⟩ :=
  ⟨le_rfl, fun _ => hz, fun h => absurd h (lt_irrefl _)⟩

theorem goodStep_break {c : Cursor} : goodStep c ⟨c.page + 1, 15⟩ :=
  ⟨Nat.le_succ _, fun h => absurd h (Nat.ne_of_lt (Nat.lt_succ_self _)), fun _ => rfl⟩

theorem lastD_append (c : Cursor) (t1 t2 : List Cursor) :
    lastD c (t1 ++ t2) = lastD (lastD c t1) t2 := by
  induction t1 generalizing c with
  | nil => rfl
  | cons d rest ih => simp [lastD, ih]

theorem chain_append {c : Cursor} {t1 t2 : List Cursor}
    (h1 : Chain c t1) (h2 : Chain (lastD c t1) t2) : Chain c (t1 ++ t2) := by
  induction t1 generalizing c with
  | nil => exact h2
  | cons d rest ih =>
    exact ⟨h1.1, ih h1.2 h2⟩

theorem stepsTo_rfl (a : Cursor × List Cursor) : StepsTo a a :=
  ⟨[], by simp, rfl, trivial⟩

theorem stepsTo_of_eq {a b : Cursor × List Cursor} (h1 : b.1 = a.1)
    (h2 : b.2 = a.2) : StepsTo a b :=
  ⟨[], by simp [h2], h1, trivial⟩

theorem stepsTo_trans {a b c : Cursor × List Cursor} (h1 : StepsTo a b)
    (h2 : StepsTo b c) : StepsTo a c := by
  obtain ⟨t1, e1, l1, c1⟩ := h1
  obtain ⟨t2, e2, l2, c2⟩ := h2
  refine ⟨t1 ++ t2, ?_, ?_, ?_⟩
  · rw [e2, e1, List.append_assoc]
  · rw [l2, l1, lastD_append]
  · exact chain_append c1 (l1 ▸ c2)

theorem stepsTo_push {a : Cursor × List Cursor} {c : Cursor}
    (h : goodStep a.1 c) : StepsTo a (c, a.2 ++ [c]) :=
  ⟨[c], rfl, rfl, h, trivial⟩

theorem stepsTo_shift {c d : Cursor} {tr : List Cursor}
    (h : StepsTo (c, []) (d, tr)) (t0 : List Cursor) :
    StepsTo (c, t0) (d, t0 ++ tr) := by
  obtain ⟨tl, he, hl, hc⟩ := h
  simp only [List.nil_append] at he
  exact ⟨tl, by simp [he], hl, hc⟩

theorem stepsTo_foldl {σ α : Type _} (f : σ → α → σ)
    (proj : σ → Cursor × List Cursor)
    (h : ∀ st a, StepsTo (proj st) (proj (f st a))) :
    ∀ (l : List α) (st : σ), StepsTo (proj st) (proj (l.foldl f st)) := by
  intro l
  induction l with
  | nil => intro st; exact stepsTo_rfl _
  | cons a rest ih =>
    intro st
    exact stepsTo_trans (h st a) (ih (f st a))

theorem rtlWord_steps (P : TLParams) (style : FStyle) (startX : ℚ)
    (isFirst : Bool) (word : List Char) (st : WordSt) (hlh : 0 ≤ P.lineHeight) :
    StepsTo (st.cur, st.tr)
      ((rtlWord P style startX isFirst word st).cur,
        (rtlWord P style startX isFirst word st).tr) := by
  unfold rtlWord
  dsimp only
  split_ifs <;>
    first
      | exact stepsTo_trans (stepsTo_push (goodStep_add hlh))
          (stepsTo_push goodStep_break)
      | exact stepsTo_push (goodStep_add hlh)
      | exact stepsTo_rfl _

theorem rtlWords_steps (P : TLParams) (style : FStyle) (startX : ℚ)
    (hlh : 0 ≤ P.lineHeight) :
    ∀ (words : List (List Char)) (isFirst : Bool) (st : WordSt),
      StepsTo (st.cur, st.tr)
        ((rtlWords P style startX words isFirst st).cur,
          (rtlWords P style startX words isFirst st).tr) := by
  intro words
  induction words with
  | nil => intro isFirst st; exact stepsTo_rfl _
  | cons w rest ih =>
    intro isFirst st
    rw [rtlWords]
    exact stepsTo_trans (rtlWord_steps P style startX isFirst w st hlh) (ih false _)

theorem rtlSeg_steps (P : TLParams) (startX : ℚ) (hlh : 0 ≤ P.lineHeight)
    (st : WordSt) (seg : Seg) :
    StepsTo (st.cur, st.tr)
      ((rtlSeg P startX st seg).cur, (rtlSeg P startX st seg).tr) := by
  unfold rtlSeg
  split_ifs
  · exact stepsTo_rfl _
  · exact rtlWords_steps P (styleOf seg) startX hlh (splitOnSpace seg.text) true st

theorem renderTextLine_chain (P : TLParams) (segs : List Seg) (c : Cursor)
    (hlh : 0 ≤ P.lineHeight) :
    StepsTo (c, [])
      ((renderTextLine P segs c).1,
        (renderTextLine P segs c).2.2 ++ [(renderTextLine P segs c).1]) := by
  unfold renderTextLine
  dsimp only
  have hfold := stepsTo_foldl (rtlSeg P (P.xPosition + P.bulletIndent))
    (fun st => (st.cur, st.tr))
    (fun st a => rtlSeg_steps P (P.xPosition + P.bulletIndent) hlh st a) segs
    ⟨P.xPosition + P.bulletIndent, c,
      if P.bulletIndent > 0 then
        [⟨c.page, if P.bulletIndent > 15 then P.xPosition + 12 else P.xPosition + 2,
          c.y, .normal, .glyph, ['•']⟩]
      else [], []⟩
  exact stepsTo_trans hfold (stepsTo_push (goodStep_add hlh))

theorem aftStep_steps (m : FStyle → List Char → ℚ) (x w : ℚ) (o : AFTOpts)
    (hlh : 0 ≤ o.lineHeight) (st : AFTSt) (seg : Seg) :
    StepsTo (st.cur, st.tr)
      ((aftStep m x w o st seg).cur, (aftStep m x w o st seg).tr) := by
  unfold aftStep
  dsimp only
  split_ifs
  · -- newline with pending segments: flush through renderTextLine
    have h := renderTextLine_chain
      ⟨m, x, w, o.lineHeight, st.bIndent, o.pageHeight⟩ st.pending st.cur hlh
    obtain ⟨tl, he, hl, hc⟩ := h
    simp only [List.nil_append] at he
    exact ⟨tl, by simp [← he], hl, hc⟩
  · -- empty line: paragraph spacing
    exact stepsTo_push (goodStep_add hlh)
  all_goals exact stepsTo_of_eq rfl rfl

theorem addFormattedText_steps (m : FStyle → List Char → ℚ) (x w : ℚ)
    (o : AFTOpts) (segs : List Seg) (c : Cursor) (hlh : 0 ≤ o.lineHeight) :
    StepsTo (c, [])
      ((addFormattedText m x w o segs c).cur,
        (addFormattedText m x w o segs c).tr) := by
  unfold addFormattedText
  dsimp only
  have hfold := stepsTo_foldl (aftStep m x w o) (fun st => (st.cur, st.tr))
    (fun st a => aftStep_steps m x w o hlh st a) segs ⟨c, [], 0, [], [], []⟩
  split_ifs
  · refine stepsTo_trans hfold ?_
    set stF := segs.foldl (aftStep m x w o) ⟨c, [], 0, [], [], []⟩ with hstF
    have h := renderTextLine_chain
      ⟨m, x, w, o.lineHeight, stF.bIndent, o.pageHeight⟩ stF.pending stF.cur hlh
    obtain ⟨tl, he, hl, hc⟩ := h
    simp only [List.nil_append] at he
    exact ⟨tl, by simp [← he], hl, hc⟩
  · exact hfold

theorem setCur_steps {st : RSt} {c : Cursor} (h : goodStep st.cur c) :
    StepsTo (st.cur, st.tr) ((setCur c st).cur, (setCur c st).tr) :=
  stepsTo_push h

theorem addY_steps {st : RSt} (d : ℚ) (h : 0 ≤ d) :
    StepsTo (st.cur, st.tr) ((addY d st).cur, (addY d st).tr) :=
  stepsTo_push (goodStep_add h)

theorem emitE_steps (e : Ev) (st : RSt) :
    StepsTo (st.cur, st.tr) ((emitE e st).cur, (emitE e st).tr) :=
  stepsTo_of_eq rfl rfl

theorem breakIfPast_steps (threshold : ℚ) (st : RSt) :
    StepsTo (st.cur, st.tr)
      ((breakIfPast threshold st).cur, (breakIfPast threshold st).tr) := by
  unfold breakIfPast
  split_ifs
  · exact stepsTo_push goodStep_break
  · exact stepsTo_rfl _

theorem fitBreak_steps (cond : Prop) [Decidable cond] (st : RSt) :
    StepsTo (st.cur, st.tr)
      ((if cond then setCur ⟨st.cur.page + 1, 15⟩ st else st).cur,
        (if cond then setCur ⟨st.cur.page + 1, 15⟩ st else st).tr) := by
  split_ifs
  · exact stepsTo_push goodStep_break
  · exact stepsTo_rfl _

theorem renderHeading_steps (heading : Option (List Char)) (st : RSt) :
    StepsTo (st.cur, st.tr)
      ((renderHeading heading st).cur, (renderHeading heading st).tr) := by
  cases heading with
  | none => exact stepsTo_rfl _
  | some hd =>
    exact stepsTo_trans (emitE_steps _ st)
      (stepsTo_trans (addY_steps 3 (by norm_num)) (addY_steps 8 (by norm_num)))

theorem renderSection_steps (m : FStyle → List Char → ℚ) (st : RSt)
    (s : PSection) (hs : SecOK s) :
    StepsTo (st.cur, st.tr)
      ((renderSection m st s).cur, (renderSection m st s).tr) := by
  cases s with
  | text heading content isFormatted hasRef capturedHeight =>
    have hch : (0 : ℚ) ≤ capturedHeight := hs
    unfold renderSection
    dsimp only
    by_cases h1 : (hasRef && !isFormatted) = true
    · rw [if_pos h1]
      refine stepsTo_trans (breakIfPast_steps (297 - 50) st) ?_
      refine stepsTo_trans
        (fitBreak_steps
          ((breakIfPast (297 - 50) st).cur.y + capturedHeight > 297 - 15)
          (breakIfPast (297 - 50) st)) ?_
      exact addY_steps (capturedHeight + 10) (by linarith)
    · rw [if_neg h1]
      refine stepsTo_trans (breakIfPast_steps (297 - 30) st) ?_
      refine stepsTo_trans (renderHeading_steps heading _) ?_
      set st2 := renderHeading heading (breakIfPast (297 - 30) st) with hst2
      have ha := addFormattedText_steps m 15 180 ⟨13/2, 297⟩
        (parseFormattedText content) st2.cur (by norm_num)
      exact stepsTo_trans (stepsTo_shift ha st2.tr) (addY_steps 8 (by norm_num))
  | table heading hasData tableFn =>
    unfold renderSection
    dsimp only
    refine stepsTo_trans (breakIfPast_steps (297 - 100) st) ?_
    refine stepsTo_trans (renderHeading_steps heading _) ?_
    set st2 := renderHeading heading (breakIfPast (297 - 100) st) with hst2
    by_cases h1 : hasData = true
    · rw [if_pos h1]
      rcases htf : tableFn st2.cur.y with _ | _ | f
      · exact addY_steps 50 (by norm_num)
      · exact addY_steps 100 (by norm_num)
      · have hyf : st2.cur.y ≤ f := hs st2.cur.y f htf
        exact setCur_steps (goodStep_le (by linarith))
    · rw [if_neg h1]
      exact stepsTo_rfl _
  | chart heading hasRef captureRes =>
    unfold renderSection
    dsimp only
    by_cases h1 : hasRef = true
    · rw [if_pos h1]
      refine stepsTo_trans (breakIfPast_steps (297 - 100) st) ?_
      refine stepsTo_trans (renderHeading_steps heading _) ?_
      set st2 := renderHeading heading (breakIfPast (297 - 100) st) with hst2
      rcases hcap : captureRes with _ | h
      · exact addY_steps 50 (by norm_num)
      · have hh : (0 : ℚ) ≤ h := hs h hcap
        refine stepsTo_trans
          (fitBreak_steps (st2.cur.y + h > 297 - 15) st2) ?_
        exact addY_steps (h + 10) (by linarith)
    · rw [if_neg h1]
      exact stepsTo_rfl _

theorem runSections_steps (m : FStyle → List Char → ℚ) :
    ∀ (sections : List PSection) (st : RSt), (∀ s ∈ sections, SecOK s) →
      StepsTo (st.cur, st.tr)
        ((runSections m sections st).cur, (runSections m sections st).tr) := by
  intro sections
  induction sections with
  | nil => intro st _; exact stepsTo_rfl _
  | cons s rest ih =>
    intro st h
    rw [show runSections m (s :: rest) st =
      runSections m rest (renderSection m st s) from rfl]
    exact stepsTo_trans (renderSection_steps m st s (h s (List.mem_cons_self _ _)))
      (ih _ (fun q hq => h q (List.mem_cons_of_mem _ hq)))

/-- C1: across one whole document-generation run — title/question/answer
preamble, every text, table and chart section, and the timestamp footer —
the cursor trace is admissible: the page number never decreases, the
y-coordinate never decreases while the page is unchanged, and immediately
after every page break the y-coordinate is exactly the top margin 15.  The
external capabilities are assumed well-behaved (`SecOK`): captured bitmap
heights are nonnegative and the external table renderer reports a final y
at or below (on the page) its start y. -/
theorem c1_cursor_monotonicity (m : FStyle → List Char → ℚ)
    (question answer : List Char) (qL aL : ℕ) (sections : List PSection)
    (hsec : ∀ s ∈ sections, SecOK s) :
    Chain ⟨1, 15⟩ (downloadMessagePDF m question answer qL aL sections).tr := by
  have h : StepsTo ((⟨1, 15⟩ : Cursor), ([] : List Cursor))
      ((downloadMessagePDF m question answer qL aL sections).cur,
        (downloadMessagePDF m question answer qL aL sections).tr) := by
    unfold downloadMessagePDF
    dsimp only
    show StepsTo ((⟨⟨1, 15⟩, [], []⟩ : RSt).cur, (⟨⟨1, 15⟩, [], []⟩ : RSt).tr) _
    exact stepsTo_trans (emitE_steps _ _)
      (stepsTo_trans (addY_steps 12 (by norm_num))
        (stepsTo_trans (emitE_steps _ _)
          (stepsTo_trans (addY_steps 7 (by norm_num))
            (stepsTo_trans (emitE_steps _ _)
              (stepsTo_trans (addY_steps ((qL : ℚ) * 6 + 10) (by positivity))
                (stepsTo_trans (emitE_steps _ _)
                  (stepsTo_trans (addY_steps 7 (by norm_num))
                    (stepsTo_trans (emitE_steps _ _)
                      (stepsTo_trans
                        (addY_steps ((aL : ℚ) * (13 / 2) + 12) (by positivity))
                        (stepsTo_trans (runSections_steps m sections _ hsec)
                          (emitE_steps _ _)))))))))))
  obtain ⟨tl, he, hl, hc⟩ := h
  have he2 : (downloadMessagePDF m question answer qL aL sections).tr = tl := by
    simpa using he
  rw [he2]
  exact hc

/-- C1 witness: a run with no sections (and the trivial width measure)
has an admissible cursor trace. -/
theorem c1_cursor_monotonicity_witness :
    Chain ⟨1, 15⟩
      (downloadMessagePDF (fun _ _ => 0) "q".toList "a".toList 1 1 []).tr :=
  c1_cursor_monotonicity (fun _ _ => 0) "q".toList "a".toList 1 1 []
    (by intro s hs; cases hs)

end ChatPdf
